import Mathlib

/-!
Verification of the SSH public-key inventory manager (`manage_keys.py`).

The program is a single class `SSHKeyManager` doing CRUD over two flat files
(a key-list file and a metadata sidecar) plus an append-only deploy target.
We shallowly embed the relevant methods as pure Lean functions over an
explicit state.  Text is modelled as `List Char` (the program treats key
lines as opaque ASCII strings); Python string helpers (`strip`, `split`,
`lower`, `int(...)`) are modelled character by character below.
-/

namespace ManageKeys

/-- A piece of text (one line, a token, or a whole file's contents). -/
abbrev Line := List Char

/-- Shorthand turning a Lean string literal into our character-list model. -/
def chars (s : String) : Line := s.data

/-- Whitespace characters recognised by Python's `str.strip` / `str.split`
(ASCII subset, which is all this program ever handles). -/
def isPySpace (c : Char) : Bool :=
  c = ' ' || c = '\t' || c = '\n' || c = '\r' || c = '\x0b' || c = '\x0c'

/-- Python `str.strip()`: drop leading and trailing whitespace. -/
def pyStrip (s : Line) : Line :=
  ((s.dropWhile isPySpace).reverse.dropWhile isPySpace).reverse

/-- Python `str.lower()` (ASCII). -/
def pyLower (s : Line) : Line := s.map Char.toLower

/-- Split at every character satisfying `p`, keeping empty segments. -/
def splitOnP (p : Char → Bool) : Line → List Line
  | [] => [[]]
  | c :: cs =>
    if p c then [] :: splitOnP p cs
    else
      match splitOnP p cs with
      | [] => [[c]]
      | w :: ws => (c :: w) :: ws

/-- Python `str.split(sep)` for a one-character `sep`: split on the
separator, keeping empty segments. -/
def splitOnChar (sep : Char) : Line → List Line := splitOnP (fun c => c = sep)

/-- Python `str.split()` with no argument: split on whitespace and keep
only the non-empty fields (exactly how CPython specifies it). -/
def pySplit (s : Line) : List Line :=
  (splitOnP isPySpace s).filter (fun w => ¬ w = [])

/-- Accumulate the decimal digits (with Python 3's underscores-between-digits
rule) of a literal; `none` when the text is not a valid digit part. -/
def pyDigits (acc : Nat) : Line → Option Nat
  | [] => some acc
  | '_' :: c :: cs =>
    if c.isDigit then pyDigits (acc * 10 + (c.toNat - 48)) cs else none
  | ['_'] => none
  | c :: cs =>
    if c.isDigit then pyDigits (acc * 10 + (c.toNat - 48)) cs else none

/-- Python `int(s)` on a decimal literal: surrounding whitespace allowed,
optional sign, then digits; `none` models the `ValueError` raise. -/
def pyInt (s : Line) : Option Int :=
  match pyStrip s with
  | [] => none
  | '+' :: rest =>
    match rest with
    | [] => none
    | c :: cs => if c.isDigit then (pyDigits (c.toNat - 48) cs).map Int.ofNat else none
  | '-' :: rest =>
    match rest with
    | [] => none
    | c :: cs =>
      if c.isDigit then (pyDigits (c.toNat - 48) cs).map (fun n => -(n : Int)) else none
  | c :: cs => if c.isDigit then (pyDigits (c.toNat - 48) cs).map Int.ofNat else none

/-- `[int(i.strip()) - 1 for i in selection.split(',')]`: parse a typed
comma-separated index selection, already 0-based; `none` models the
`ValueError` raise on any non-numeric token. -/
def parseIndices (sel : Line) : Option (List Int) :=
  ((splitOnChar ',' sel).mapM (fun t => pyInt (pyStrip t))).map
    (List.map (fun n => n - 1))

/-! ## Key lines -/

/-- `get_key_name`: the display name of a key line — the *last*
whitespace-separated field when there are more than two fields, else
`"Unknown"` (source line 157). -/
def getKeyName (key : Line) : Line :=
  let parts := pySplit (pyStrip key)
  if parts.length > 2 then parts.getLastD [] else chars "Unknown"

/-- `get_key_parts`: the `(type, base64-material)` identity of a key line,
`none` when the line has fewer than two fields (source line 162). -/
def getKeyParts (key : Line) : Option (Line × Line) :=
  match pySplit (pyStrip key) with
  | t :: d :: _ => some (t, d)
  | _ => none

/-- `find_existing_key`: index of the first inventory entry whose
`(type, material)` equals the candidate's, comments ignored
(source line 169). -/
def findExistingKey (keys : List Line) (newKey : Line) : Option Nat :=
  match getKeyParts newKey with
  | none => none
  | some td => keys.findIdx? (fun k => getKeyParts k = some td)

/-! ## Data model

`self.aliases` is a Python dict from display name to a metadata value.
Capture and set-expiry store a structured record (`added` / `alias` /
`expiry` string fields); set-alias stores a bare string, so the value type
is a sum.  The dict is modelled as an insertion-ordered association list
with unique keys, exactly Python's observable dict behaviour here. -/

inductive MetaVal where
  /-- A structured metadata record `{added, alias, expiry}` (absent fields
  are `none`). -/
  | record (added aliasText expiry : Option Line)
  /-- A bare string value, as stored by `set_alias`. -/
  | bare (s : Line)
deriving DecidableEq

abbrev AliasDict := List (Line × MetaVal)

/-- Python `d[k] = v`: update in place when the key exists, else append. -/
def dictSet (d : AliasDict) (k : Line) (v : MetaVal) : AliasDict :=
  if d.any (fun p => p.1 = k) then
    d.map (fun p => if p.1 = k then (k, v) else p)
  else d ++ [(k, v)]

/-- Python `d.pop(k, None)`: remove the entry with key `k` if present. -/
def dictPop (d : AliasDict) (k : Line) : AliasDict :=
  d.filter (fun p => ¬ p.1 = k)

/-- Python `k in d` / `k not in d`. -/
def dictHas (d : AliasDict) (k : Line) : Bool :=
  d.any (fun p => p.1 = k)

/-- The metadata sidecar file, modelled by the outcome of `json.load` on
its text: either it parses to a name-to-metadata mapping, or `json.load`
raises `JSONDecodeError`. -/
inductive SidecarFile where
  | parsable (d : AliasDict)
  | malformed
deriving DecidableEq

/-- The manager's state: the two in-memory collections (`self.keys`,
`self.aliases`) and the files it touches — the inventory key-list file,
the metadata sidecar, the backup directory (a list of copied file
contents, in creation order) and the deploy target
`~/.ssh/authorized_keys`.  `none` means the file does not exist. -/
structure State where
  keys : List Line
  aliases : AliasDict
  keysFile : Option Line
  aliasesFile : Option SidecarFile
  backups : List Line
  target : Option Line
deriving DecidableEq

/-! ## Load / save / backup -/

/-- Lines of a raw file text, as Python's
`[line.strip() for line in f if line.strip()]` produces them: split the
text at newlines, strip each piece, drop blanks. -/
def loadLines (content : Line) : List Line :=
  ((splitOnChar '\n' content).map pyStrip).filter (fun l => ¬ l = [])

/-- `'\n'.join(keys)` (source line 77). -/
def joinNL : List Line → Line
  | [] => []
  | [k] => k
  | k :: rest => k ++ '\n' :: joinNL rest

/-- The text `save_keys` writes: `'\n'.join(self.keys) + '\n'`. -/
def fileOfKeys (keys : List Line) : Line := joinNL keys ++ ['\n']

/-- The text appended by deploy: `key + '\n'` for each key, in order. -/
def appendContent (ks : List Line) : Line :=
  (ks.map (fun k => k ++ ['\n'])).flatten

/-- `load_keys` (source line 64): missing file gives an empty list, else
the stripped non-blank lines of the file. -/
def loadKeys (s : State) : State :=
  match s.keysFile with
  | none => { s with keys := [] }
  | some c => { s with keys := loadLines c }

/-- `load_aliases` (source line 40): missing file leaves the mapping
alone; a file whose text `json.load` rejects prints a warning
(second component `true`) and leaves the mapping alone; otherwise the
parsed mapping replaces it.  The `except` clause means no exception ever
reaches the caller, hence a total function. -/
def loadAliases (s : State) : State × Bool :=
  match s.aliasesFile with
  | none => (s, false)
  | some .malformed => (s, true)
  | some (.parsable d) => ({ s with aliases := d }, false)

/-- `save_aliases` (source line 49): write the in-memory mapping to the
sidecar. -/
def saveAliases (s : State) : State :=
  { s with aliasesFile := some (.parsable s.aliases) }

/-- `create_backup` (source line 54): copy the on-disk key-list file into
the backup directory.  `shutil.copy2` raises `FileNotFoundError` when the
key-list file does not exist — modelled by `Except.error`. -/
def createBackup (s : State) : Except Unit State :=
  match s.keysFile with
  | none => .error ()
  | some c => .ok { s with backups := s.backups ++ [c] }

/-- `save_keys` (source line 73): backup, then overwrite the key-list
file with the joined in-memory list, then persist the sidecar. -/
def saveKeys (s : State) : Except Unit State :=
  match createBackup s with
  | .error e => .error e
  | .ok s1 => .ok (saveAliases { s1 with keysFile := some (fileOfKeys s1.keys) })

/-- `__init__` (source line 22): start with an empty mapping, then
`load_keys()`, then `load_aliases()`; the second component records
whether the malformed-sidecar warning was printed. -/
def initState (keysFile : Option Line) (aliasesFile : Option SidecarFile)
    (backups : List Line) (target : Option Line) : State × Bool :=
  loadAliases (loadKeys
    { keys := [], aliases := [], keysFile := keysFile,
      aliasesFile := aliasesFile, backups := backups, target := target })

/-! ## Deploy (source line 258) -/

/-- Resolve a stripped selection over the inventory: `'all'` (after
`lower()`) selects every key in order; otherwise the comma-separated
indices are parsed and each in-range one picks its key
(`[self.keys[i] for i in indices if 0 <= i < len(self.keys)]`);
`none` models the `ValueError` abort. -/
def resolveSelection (keys : List Line) (sel : Line) : Option (List Line) :=
  if pyLower sel = chars "all" then some keys
  else
    match parseIndices sel with
    | none => none
    | some idxs =>
      some (idxs.filterMap (fun i => if 0 ≤ i then keys[i.toNat]? else none))

inductive DeployResult where
  | noKeys
  | emptySelection
  | invalidSelection
  | alreadyDeployed
  /-- Names reported as successfully deployed / failed, in `keys_to_add`
  order. -/
  | report (succeeded failed : List Line)
deriving DecidableEq

/-- `deploy_keys`: append the selected keys whose exact line is not
already among the target's stripped lines, then re-read and report.
Directory creation and `chmod` are environment interactions that cannot
fail in this model. -/
def deployKeys (s : State) (selInput : Line) : State × DeployResult :=
  if s.keys = [] then (s, .noKeys)
  else
    let sel := pyStrip selInput
    if sel = [] then (s, .emptySelection)
    else
      match resolveSelection s.keys sel with
      | none => (s, .invalidSelection)
      | some selected =>
        let existing := match s.target with
          | none => []
          | some raw => loadLines raw
        let keysToAdd := selected.filter (fun k => ¬ k ∈ existing)
        if keysToAdd = [] then (s, .alreadyDeployed)
        else
          let newRaw := (s.target.getD []) ++ appendContent keysToAdd
          let deployed := loadLines newRaw
          ({ s with target := some newRaw },
           .report ((keysToAdd.filter (fun k => k ∈ deployed)).map getKeyName)
                   ((keysToAdd.filter (fun k => ¬ k ∈ deployed)).map getKeyName))

/-! ## Delete (source line 380) -/

/-- Insert into a descending list (used to model Python's
`sorted(..., reverse=True)`). -/
def insertDesc (x : Int) : List Int → List Int
  | [] => [x]
  | y :: ys => if y ≤ x then x :: y :: ys else y :: insertDesc x ys

/-- `sorted(indices, reverse=True)`. -/
def sortDesc : List Int → List Int
  | [] => []
  | x :: xs => insertDesc x (sortDesc xs)

/-- The deletion loop (source line 433): for each index in order, if it is
in range of the *current* list, record the display name, pop that name
from the metadata dict, and delete the list entry.  Returns the new list,
the new dict and the recorded names in deletion order. -/
def deleteLoop : List Int → List Line → AliasDict →
    List Line × AliasDict × List Line
  | [], keys, al => (keys, al, [])
  | i :: rest, keys, al =>
    if 0 ≤ i ∧ i.toNat < keys.length then
      let name := getKeyName (keys.getD i.toNat [])
      let r := deleteLoop rest (keys.eraseIdx i.toNat) (dictPop al name)
      (r.1, r.2.1, name :: r.2.2)
    else deleteLoop rest keys al

inductive DeleteResult where
  | noKeys
  | emptySelection
  | invalidSelection
  | cancelled
  | deleted (names : List Line)
deriving DecidableEq

/-- `delete_keys`: `'all'` (confirmed) deletes indices `0, 1, …, N-1` in
*increasing* order; a typed selection (confirmed) deletes its parsed
indices sorted in decreasing order; then one `save_keys` if anything was
deleted (whose backup step can fail, hence `Except`). -/
def deleteKeys (s : State) (selInput confirm : Line) :
    Except Unit (State × DeleteResult) :=
  if s.keys = [] then .ok (s, .noKeys)
  else
    let sel := pyStrip selInput
    if sel = [] then .ok (s, .emptySelection)
    else
      let toDelete? : Option (List Int) :=
        if pyLower sel = chars "all" then
          some ((List.range s.keys.length).map Int.ofNat)
        else
          (parseIndices sel).map sortDesc
      match toDelete? with
      | none => .ok (s, .invalidSelection)
      | some toDelete =>
        if pyLower confirm = chars "yes" then
          let r := deleteLoop toDelete s.keys s.aliases
          let s1 := { s with keys := r.1, aliases := r.2.1 }
          if r.2.2 = [] then .ok (s1, .deleted [])
          else
            match saveKeys s1 with
            | .error e => .error e
            | .ok s2 => .ok (s2, .deleted r.2.2)
        else .ok (s, .cancelled)

/-! ## Capture (source line 192) -/

/-- One appended entry in `capture_keys`: stamp `added` with the current
time, add `alias` / `expiry` when the stripped prompt answers are
non-empty, store under the display name, and append the key. -/
def captureAdd (key : Line) (aliasAns expiryAns now : Line)
    (keys : List Line) (al : AliasDict) : List Line × AliasDict × Line :=
  let name := getKeyName key
  let a := pyStrip aliasAns
  let e := pyStrip expiryAns
  let md : MetaVal := .record (some now)
    (if a = [] then none else some a)
    (if e = [] then none else some e)
  (keys ++ [key], dictSet al name md, name)

/-- The capture loop (source line 217): for each selected in-range system
key, either skip (a declined overwrite), or remove the matching entry and
its metadata first, then append the new entry with fresh metadata.
Prompt answers are indexed by the iteration counter `j`. -/
def captureLoop (sysKeys : List Line) (ow aliasAns expiryAns : Nat → Line)
    (now : Line) : List Int → Nat → List Line → AliasDict →
    List Line × AliasDict × List Line
  | [], _, keys, al => (keys, al, [])
  | i :: rest, j, keys, al =>
    if 0 ≤ i ∧ i.toNat < sysKeys.length then
      let key := sysKeys.getD i.toNat []
      match findExistingKey keys key with
      | some eidx =>
        if pyLower (ow j) = chars "y" then
          let oldName := getKeyName (keys.getD eidx [])
          let a := captureAdd key (aliasAns j) (expiryAns j) now
            (keys.eraseIdx eidx) (dictPop al oldName)
          let r := captureLoop sysKeys ow aliasAns expiryAns now rest (j + 1) a.1 a.2.1
          (r.1, r.2.1, a.2.2 :: r.2.2)
        else captureLoop sysKeys ow aliasAns expiryAns now rest (j + 1) keys al
      | none =>
        let a := captureAdd key (aliasAns j) (expiryAns j) now keys al
        let r := captureLoop sysKeys ow aliasAns expiryAns now rest (j + 1) a.1 a.2.1
        (r.1, r.2.1, a.2.2 :: r.2.2)
    else captureLoop sysKeys ow aliasAns expiryAns now rest (j + 1) keys al

/-- `capture_keys`: enumerate system keys, resolve the selection
(`'all'` or typed indices; a parse failure aborts with nothing changed),
run the loop, and `save_keys` once if anything was added.  Returns the
added display names. -/
def captureKeys (s : State) (sysKeys : List Line) (selInput : Line)
    (ow aliasAns expiryAns : Nat → Line) (now : Line) :
    Except Unit (State × List Line) :=
  if sysKeys = [] then .ok (s, [])
  else
    let sel := pyStrip selInput
    if sel = [] then .ok (s, [])
    else
      let indices? : Option (List Int) :=
        if pyLower sel = chars "all" then
          some ((List.range sysKeys.length).map Int.ofNat)
        else parseIndices sel
      match indices? with
      | none => .ok (s, [])
      | some idxs =>
        let r := captureLoop sysKeys ow aliasAns expiryAns now idxs 0 s.keys s.aliases
        let s1 := { s with keys := r.1, aliases := r.2.1 }
        if r.2.2 = [] then .ok (s1, [])
        else
          match saveKeys s1 with
          | .error e => .error e
          | .ok s2 => .ok (s2, r.2.2)

/-! ## Set-alias (source line 355) and set-expiry (source line 123) -/

/-- `set_alias`: parse the single index; when it is in range and the
stripped alias text is non-empty, assign `self.aliases[name] = alias` —
a *bare string*, replacing any structured record — and do not save. -/
def setAlias (s : State) (selInput aliasInput : Line) : State :=
  if s.keys = [] then s
  else
    match pyInt (pyStrip selInput) with
    | none => s
    | some n =>
      let idx := n - 1
      if 0 ≤ idx ∧ idx.toNat < s.keys.length then
        let name := getKeyName (s.keys.getD idx.toNat [])
        let a := pyStrip aliasInput
        if a = [] then s
        else { s with aliases := dictSet s.aliases name (.bare a) }
      else s

/-- `self.aliases[name]['expiry'] = date_str`: merge the expiry into a
structured record; on a bare-string value Python raises `TypeError`
(`Except.error`). -/
def setMetaExpiry : MetaVal → Line → Except Unit MetaVal
  | .record ad al _, d => .ok (.record ad al (some d))
  | .bare _, _ => .error ()

/-- `set_expiry` (source line 123), as invoked from the menu with an
already-parsed 0-based index: out of range prints and returns; otherwise
insert an empty record when the name is absent, merge the expiry in, and
`save_aliases`. -/
def setExpiry (s : State) (idx : Int) (dateStr : Line) : Except Unit State :=
  if 0 ≤ idx ∧ idx.toNat < s.keys.length then
    let name := getKeyName (s.keys.getD idx.toNat [])
    let al0 := if dictHas s.aliases name then s.aliases
               else s.aliases ++ [(name, .record none none none)]
    match (al0.find? (fun p => p.1 = name)).map (fun p => p.2) with
    | none => .error ()
    | some v =>
      match setMetaExpiry v dateStr with
      | .error e => .error e
      | .ok v' => .ok (saveAliases { s with aliases := dictSet al0 name v' })
  else .ok s

/-! ## Basic lemmas about the string model -/

theorem dropWhile_eq_self_of_head {α : Type} (p : α → Bool) (l : List α)
    (h : ∀ c, l.head? = some c → p c = false) : l.dropWhile p = l := by
  cases l with
  | nil => rfl
  | cons c l => exact List.dropWhile_cons_of_neg (by simp [h c rfl])

/-- `strip` is the identity on text whose first and last characters are
not whitespace. -/
theorem pyStrip_eq_self (l : Line)
    (hh : ∀ c, l.head? = some c → isPySpace c = false)
    (hl : ∀ c, l.getLast? = some c → isPySpace c = false) :
    pyStrip l = l := by
  unfold pyStrip
  rw [dropWhile_eq_self_of_head _ _ hh]
  rw [dropWhile_eq_self_of_head _ _ (fun c hc => hl c (by rwa [← List.head?_reverse]))]
  exact l.reverse_reverse

theorem pyStrip_nil : pyStrip [] = [] := rfl

/-- Words: non-empty text with no whitespace characters. -/
def isWord (w : Line) : Prop := w ≠ [] ∧ ∀ c ∈ w, isPySpace c = false

instance (w : Line) : Decidable (isWord w) := by unfold isWord; infer_instance

theorem pyStrip_word (w : Line) (hw : isWord w) : pyStrip w = w := by
  refine pyStrip_eq_self w (fun c hc => ?_) (fun c hc => ?_)
  · exact hw.2 c (List.mem_of_mem_head? hc)
  · exact hw.2 c (List.mem_of_mem_getLast? hc)

theorem splitOnP_ne_nil (p : Char → Bool) (l : Line) : splitOnP p l ≠ [] := by
  cases l with
  | nil => simp [splitOnP]
  | cons c cs =>
    simp only [splitOnP]
    split
    · simp
    · split <;> simp

theorem splitOnP_cons_pos (p : Char → Bool) (c : Char) (cs : Line)
    (hc : p c = true) : splitOnP p (c :: cs) = [] :: splitOnP p cs := by
  simp [splitOnP, hc]

theorem splitOnP_cons_neg (p : Char → Bool) (c : Char) (cs : Line) (w : Line)
    (ws : List Line) (hc : p c = false) (h : splitOnP p cs = w :: ws) :
    splitOnP p (c :: cs) = (c :: w) :: ws := by
  simp only [splitOnP, hc, Bool.false_eq_true, if_false, h]

/-- A run of non-separator characters followed by a separator splits off
as one segment. -/
theorem splitOnP_append_pos (p : Char → Bool) (l r : Line) (c : Char)
    (hl : ∀ x ∈ l, p x = false) (hc : p c = true) :
    splitOnP p (l ++ c :: r) = l :: splitOnP p r := by
  induction l with
  | nil => simpa using splitOnP_cons_pos p c r hc
  | cons x l ih =>
    have ih2 := ih (fun y hy => hl y (by simp [hy]))
    rw [List.cons_append]
    exact splitOnP_cons_neg p x _ l (splitOnP p r) (hl x (by simp)) ih2

/-- Text with no separator character is one whole segment. -/
theorem splitOnP_no_pos (p : Char → Bool) (l : Line)
    (hl : ∀ x ∈ l, p x = false) : splitOnP p l = [l] := by
  induction l with
  | nil => rfl
  | cons x l ih =>
    exact splitOnP_cons_neg p x l l [] (hl x (by simp))
      (ih (fun y hy => hl y (by simp [hy])))

/-- No segment produced by `splitOnP` contains a separator character. -/
theorem splitOnP_not_mem (p : Char → Bool) (l : Line) :
    ∀ seg ∈ splitOnP p l, ∀ x ∈ seg, p x = false := by
  induction l with
  | nil =>
    intro seg hseg
    simp only [splitOnP, List.mem_singleton] at hseg
    simp [hseg]
  | cons c cs ih =>
    intro seg hseg
    by_cases hc : p c
    · rw [splitOnP_cons_pos p c cs hc] at hseg
      rcases List.mem_cons.mp hseg with h | h
      · simp [h]
      · exact ih seg h
    · rcases hmatch : splitOnP p cs with _ | ⟨w, ws⟩
      · exact absurd hmatch (splitOnP_ne_nil p cs)
      · rw [splitOnP_cons_neg p c cs w ws (by simpa using hc) hmatch] at hseg
        rcases List.mem_cons.mp hseg with h | h
        · subst h
          intro x hx
          rcases List.mem_cons.mp hx with h | h
          · subst h; simpa using hc
          · exact ih w (by simp [hmatch]) x h
        · exact ih seg (by simp [hmatch, h])

theorem pySplit_nil : pySplit [] = [] := rfl

theorem pySplit_cons_space (c : Char) (r : Line) (hc : isPySpace c = true) :
    pySplit (c :: r) = pySplit r := by
  unfold pySplit
  rw [splitOnP_cons_pos isPySpace c r hc, List.filter_cons]
  simp

/-- One step of `pySplit`: a leading word followed by nothing or by a
whitespace character is split off whole. -/
theorem pySplit_word_append (w s : Line) (hw : isWord w)
    (hs : ∀ c, s.head? = some c → isPySpace c = true) :
    pySplit (w ++ s) = w :: pySplit s := by
  cases s with
  | nil =>
    rw [List.append_nil, pySplit_nil]
    unfold pySplit
    rw [splitOnP_no_pos isPySpace w hw.2, List.filter_cons]
    simp [hw.1]
  | cons c s' =>
    have hc := hs c rfl
    unfold pySplit
    rw [splitOnP_append_pos isPySpace w s' c hw.2 hc,
      splitOnP_cons_pos isPySpace c s' hc, List.filter_cons, List.filter_cons]
    simp [hw.1]

theorem pySplit_word (w : Line) (hw : isWord w) : pySplit w = [w] := by
  have h := pySplit_word_append w [] hw (fun c hc => by simp at hc)
  simpa [pySplit_nil] using h

/-- `' '.join` of a list of fields (how a key line is assembled from its
whitespace-separated fields). -/
def joinSpace : List Line → Line
  | [] => []
  | [f] => f
  | f :: rest => f ++ ' ' :: joinSpace rest

theorem joinSpace_ne_nil (fs : List Line) (h : fs ≠ []) (hw : ∀ f ∈ fs, isWord f) :
    joinSpace fs ≠ [] := by
  match fs with
  | [f] =>
    have := (hw f (by simp)).1
    simpa [joinSpace] using this
  | f :: g :: rest =>
    have := (hw f (by simp)).1
    simp only [joinSpace]
    intro hcontra
    exact this (List.append_eq_nil.mp hcontra).1

theorem joinSpace_head? (fs : List Line) (f : Line) (hf : fs.head? = some f)
    (hne : f ≠ []) : (joinSpace fs).head? = f.head? := by
  match fs with
  | [g] => simp at hf; subst hf; rfl
  | g :: g' :: rest =>
    simp at hf; subst hf
    obtain ⟨c, f', rfl⟩ := List.exists_cons_of_ne_nil hne
    simp [joinSpace]

/-- Every character that `joinSpace` puts last comes from one of the
fields, provided the fields are words. -/
theorem joinSpace_getLast?_mem (fs : List Line) (hw : ∀ f ∈ fs, isWord f) (c : Char)
    (hc : (joinSpace fs).getLast? = some c) : ∃ f ∈ fs, c ∈ f := by
  match fs with
  | [] => simp [joinSpace] at hc
  | [f] => exact ⟨f, by simp, List.mem_of_mem_getLast? hc⟩
  | f :: g :: rest =>
    have hg : joinSpace (g :: rest) ≠ [] :=
      joinSpace_ne_nil _ (by simp) (fun x hx => hw x (by simp [hx]))
    rw [show joinSpace (f :: g :: rest) = f ++ ' ' :: joinSpace (g :: rest) from rfl] at hc
    rw [List.getLast?_append_of_ne_nil _ (by simp)] at hc
    rw [show (' ' :: joinSpace (g :: rest) : Line) =
      [' '] ++ joinSpace (g :: rest) from rfl] at hc
    rw [List.getLast?_append_of_ne_nil _ hg] at hc
    obtain ⟨f', hf', hcf'⟩ :=
      joinSpace_getLast?_mem (g :: rest) (fun x hx => hw x (by simp [hx])) c hc
    exact ⟨f', by simp [hf'], hcf'⟩

/-- Splitting a line assembled from words recovers exactly the words. -/
theorem pySplit_joinSpace (fs : List Line) (hw : ∀ f ∈ fs, isWord f) :
    pySplit (joinSpace fs) = fs := by
  match fs with
  | [] => simpa [joinSpace] using pySplit_nil
  | [f] => exact pySplit_word f (hw f (by simp))
  | f :: g :: rest =>
    have ih := pySplit_joinSpace (g :: rest) (fun x hx => hw x (by simp [hx]))
    simp only [joinSpace]
    rw [show f ++ ' ' :: joinSpace (g :: rest) = f ++ (' ' :: joinSpace (g :: rest)) from rfl]
    rw [pySplit_word_append f _ (hw f (by simp)) (fun c hc => by
      simp at hc; subst hc; rfl)]
    rw [pySplit_cons_space ' ' _ rfl, ih]

theorem pyStrip_joinSpace (fs : List Line) (hw : ∀ f ∈ fs, isWord f) :
    pyStrip (joinSpace fs) = joinSpace fs := by
  match fs with
  | [] => rfl
  | f :: rest =>
    refine pyStrip_eq_self _ (fun c hc => ?_) (fun c hc => ?_)
    · have hf := hw f (by simp)
      rw [joinSpace_head? (f :: rest) f rfl hf.1] at hc
      exact hf.2 c (List.mem_of_mem_head? hc)
    · obtain ⟨f', hf', hcf'⟩ := joinSpace_getLast?_mem (f :: rest) hw c hc
      exact (hw f' hf').2 c hcf'

/-! ## C3: display name -/

/-- The display name as the spec's sentence describes it: the line's
*comment field*, i.e. everything after the type and material fields
(joined back with single spaces), else `"Unknown"`.  Stated only to be
compared against `getKeyName`, the function the source actually has. -/
def commentDisplayName (key : Line) : Line :=
  let parts := pySplit (pyStrip key)
  if parts.length > 2 then joinSpace (parts.drop 2) else chars "Unknown"

/-- C3 (counterexample): for the key line `"ssh-rsa AAAA alice laptop"`
(a comment containing a space), the code's display name is the last field
`"laptop"`, not the comment field `"alice laptop"` that the claim
promises. -/
theorem getKeyName_comment_cex :
    getKeyName (chars "ssh-rsa AAAA alice laptop") = chars "laptop" ∧
    commentDisplayName (chars "ssh-rsa AAAA alice laptop") = chars "alice laptop" ∧
    ¬ getKeyName (chars "ssh-rsa AAAA alice laptop") =
        commentDisplayName (chars "ssh-rsa AAAA alice laptop") := by
  refine ⟨by decide, by decide, by decide⟩

/-- C3 (amended): on a key line assembled from whitespace-free non-empty
fields, the display name is the *last* field when there are more than two
fields, and `"Unknown"` otherwise.  (It equals the whole comment exactly
when the comment has no internal whitespace.) -/
theorem getKeyName_last_field (fields : List Line)
    (hw : ∀ f ∈ fields, isWord f) :
    getKeyName (joinSpace fields) =
      if fields.length > 2 then fields.getLastD [] else chars "Unknown" := by
  show (if (pySplit (pyStrip (joinSpace fields))).length > 2 then
      (pySplit (pyStrip (joinSpace fields))).getLastD []
    else chars "Unknown") = _
  rw [pyStrip_joinSpace fields hw, pySplit_joinSpace fields hw]

/-- Witness for C3's amended theorem at a concrete four-field line. -/
theorem getKeyName_last_field_witness :
    (∀ f ∈ [chars "ssh-rsa", chars "AAAA", chars "alice", chars "laptop"], isWord f) ∧
    getKeyName (joinSpace [chars "ssh-rsa", chars "AAAA", chars "alice", chars "laptop"]) =
      if ([chars "ssh-rsa", chars "AAAA", chars "alice", chars "laptop"].length > 2) then
        [chars "ssh-rsa", chars "AAAA", chars "alice", chars "laptop"].getLastD []
      else chars "Unknown" :=
  ⟨by decide, getKeyName_last_field _ (by decide)⟩

/-! ## C2: save/load round trip -/

theorem splitOnChar_append_sep (sep : Char) (l r : Line) (hl : ¬ sep ∈ l) :
    splitOnChar sep (l ++ sep :: r) = l :: splitOnChar sep r := by
  unfold splitOnChar
  exact splitOnP_append_pos _ l r sep
    (fun x hx => by simp; rintro rfl; exact hl hx) (by simp)

theorem splitOnChar_no_sep (sep : Char) (l : Line) (hl : ¬ sep ∈ l) :
    splitOnChar sep l = [l] := by
  unfold splitOnChar
  exact splitOnP_no_pos _ l (fun x hx => by simp; rintro rfl; exact hl hx)

/-- No segment produced by `splitOnChar` contains the separator. -/
theorem splitOnChar_sep_not_mem (sep : Char) (l : Line) :
    ∀ seg ∈ splitOnChar sep l, ¬ sep ∈ seg := by
  intro seg hseg hmem
  have := splitOnP_not_mem (fun c => c = sep) l seg hseg sep hmem
  simp at this

theorem appendContent_nil : appendContent [] = [] := rfl

theorem appendContent_cons (l : Line) (ls : List Line) :
    appendContent (l :: ls) = l ++ '\n' :: appendContent ls := by
  simp [appendContent]

theorem appendContent_append (a b : List Line) :
    appendContent (a ++ b) = appendContent a ++ appendContent b := by
  simp [appendContent]

theorem loadLines_nil : loadLines [] = [] := by decide

/-- Reading back text that is a sequence of newline-terminated lines
yields exactly those lines, stripped, with blanks dropped. -/
theorem loadLines_appendContent (ls : List Line) (h : ∀ l ∈ ls, ¬ '\n' ∈ l) :
    loadLines (appendContent ls) =
      (ls.map pyStrip).filter (fun l => ¬ l = []) := by
  induction ls with
  | nil => exact loadLines_nil
  | cons l ls ih =>
    rw [appendContent_cons]
    show ((splitOnChar '\n' (l ++ '\n' :: appendContent ls)).map pyStrip).filter _ = _
    rw [splitOnChar_append_sep '\n' l (appendContent ls) (h l (by simp))]
    simp only [List.map_cons, List.filter_cons]
    rw [show ((splitOnChar '\n' (appendContent ls)).map pyStrip).filter
        (fun l => ¬ l = []) = loadLines (appendContent ls) from rfl]
    rw [ih (fun x hx => h x (by simp [hx]))]

/-- A well-formed key line: non-blank, already stripped, single-line.
Both producers of in-memory keys (`load_keys`, which strips each file
line and drops blanks, and `capture_keys`, which strips each `.pub`
file's text) only store such lines. -/
def wfLine (k : Line) : Prop := k ≠ [] ∧ pyStrip k = k ∧ ¬ '\n' ∈ k

instance (k : Line) : Decidable (wfLine k) := by unfold wfLine; infer_instance

theorem fileOfKeys_eq_appendContent (keys : List Line) (h : keys ≠ []) :
    fileOfKeys keys = appendContent keys := by
  induction keys with
  | nil => exact absurd rfl h
  | cons k rest ih =>
    cases rest with
    | nil => simp [fileOfKeys, joinNL, appendContent]
    | cons g rest' =>
      have := ih (by simp)
      unfold fileOfKeys at this ⊢
      rw [show joinNL (k :: g :: rest') = k ++ '\n' :: joinNL (g :: rest') from rfl]
      rw [appendContent_cons]
      simp [this]

theorem loadLines_fileOfKeys (keys : List Line) (hwf : ∀ k ∈ keys, wfLine k) :
    loadLines (fileOfKeys keys) = keys := by
  cases hk : keys with
  | nil => decide
  | cons k rest =>
    rw [← hk, fileOfKeys_eq_appendContent keys (by simp [hk])]
    rw [loadLines_appendContent keys (fun l hl => (hwf l hl).2.2)]
    have h1 : keys.map pyStrip = keys := by
      rw [List.map_congr_left (fun l hl => (hwf l hl).2.1)]
      simp
    rw [h1]
    exact List.filter_eq_self.mpr (fun l hl => by simp [(hwf l hl).1])

/-- C2 (confirmed): `save_keys` followed by `load_keys` restores exactly
the in-memory list of key lines, order included, for every list of
well-formed (non-blank, stripped, single-line) key lines — which is every
list this program ever holds.  The key-list file must already exist for
the save to succeed at all (see C5). -/
theorem save_then_load_roundtrip (s s' : State) (c : Line)
    (hwf : ∀ k ∈ s.keys, wfLine k)
    (hfile : s.keysFile = some c)
    (hsave : saveKeys s = .ok s') :
    (loadKeys s').keys = s.keys := by
  unfold saveKeys createBackup at hsave
  rw [hfile] at hsave
  simp only [Except.ok.injEq] at hsave
  subst hsave
  unfold loadKeys saveAliases
  simp only
  exact loadLines_fileOfKeys s.keys hwf

/-- Witness for C2 at a concrete one-key state. -/
theorem save_then_load_roundtrip_witness :
    (loadKeys { keys := [chars "ssh-ed25519 AAAA alice"], aliases := [],
                keysFile := some (fileOfKeys [chars "ssh-ed25519 AAAA alice"]),
                aliasesFile := some (.parsable []), backups := [chars "old"],
                target := none }).keys = [chars "ssh-ed25519 AAAA alice"] :=
  save_then_load_roundtrip
    { keys := [chars "ssh-ed25519 AAAA alice"], aliases := [],
      keysFile := some (chars "old"), aliasesFile := none, backups := [],
      target := none }
    { keys := [chars "ssh-ed25519 AAAA alice"], aliases := [],
      keysFile := some (fileOfKeys [chars "ssh-ed25519 AAAA alice"]),
      aliasesFile := some (.parsable []), backups := [chars "old"],
      target := none }
    (chars "old") (by decide) rfl rfl

/-! ## C5: backup before save -/

/-- C5 (code bug): `save_keys` always calls `create_backup`, whose
`shutil.copy2(self.keys_file, backup_file)` is unconditional.  When the
key-list file exists, a backup copy of its current content is recorded
before the overwrite; when it does not exist (the first-ever save),
`copy2` raises `FileNotFoundError` and the save aborts instead of
silently skipping the backup as the claim (and spec section 4.1's
normative sentence) requires. -/
theorem save_backup_behavior :
    (∀ s : State, s.keysFile = none → saveKeys s = .error ()) ∧
    (∀ (s : State) (c : Line), s.keysFile = some c →
      saveKeys s = .ok (saveAliases { s with
        backups := s.backups ++ [c],
        keysFile := some (fileOfKeys s.keys) })) := by
  constructor
  · intro s h
    unfold saveKeys createBackup
    rw [h]
  · intro s c h
    unfold saveKeys createBackup
    rw [h]

/-- Witness for C5's theorem: a fresh state with no key-list file makes
`save_keys` raise, and the same state with the file present backs it up. -/
theorem save_backup_behavior_witness :
    saveKeys { keys := [], aliases := [], keysFile := none,
               aliasesFile := none, backups := [], target := none } = .error () ∧
    saveKeys { keys := [], aliases := [], keysFile := some (chars "k"),
               aliasesFile := none, backups := [], target := none } =
      .ok (saveAliases { keys := [], aliases := [],
                         keysFile := some (fileOfKeys []), aliasesFile := none,
                         backups := [chars "k"], target := none }) :=
  ⟨save_backup_behavior.1 _ rfl, save_backup_behavior.2 _ (chars "k") rfl⟩

/-! ## C6: malformed metadata sidecar -/

/-- C6 (confirmed): starting the manager against a metadata sidecar whose
text `json.load` rejects never raises (the embedded `load_aliases` is a
total function because the source catches `JSONDecodeError`), prints the
warning, and leaves the in-memory metadata mapping empty — `__init__`
initialises it to `{}` and the handler does not touch it. -/
theorem malformed_sidecar_load (keysFile : Option Line) (backups : List Line)
    (target : Option Line) :
    (initState keysFile (some .malformed) backups target).1.aliases = [] ∧
    (initState keysFile (some .malformed) backups target).2 = true := by
  unfold initState loadAliases loadKeys
  cases keysFile <;> simp

/-! ## C7: set-alias -/

/-- C7 (code bug): on a key whose metadata record holds `added` and
`expiry`, `set_alias` with a valid index and non-empty alias text
executes `self.aliases[name] = alias`, replacing the whole structured
record with a bare string (destroying `added` and `expiry`), and performs
no save at all: the on-disk key-list file and sidecar are untouched. -/
theorem setAlias_replaces_record_and_skips_save :
    setAlias
      { keys := [chars "ssh-rsa AAAA alice"],
        aliases := [(chars "alice",
          .record (some (chars "2024-01-01 10:00:00")) none (some (chars "2025-01-01")))],
        keysFile := some (chars "ssh-rsa AAAA alice"),
        aliasesFile := some (.parsable [(chars "alice",
          .record (some (chars "2024-01-01 10:00:00")) none (some (chars "2025-01-01")))]),
        backups := [], target := none }
      (chars "1") (chars "work laptop") =
    { keys := [chars "ssh-rsa AAAA alice"],
      aliases := [(chars "alice", .bare (chars "work laptop"))],
      keysFile := some (chars "ssh-rsa AAAA alice"),
      aliasesFile := some (.parsable [(chars "alice",
        .record (some (chars "2024-01-01 10:00:00")) none (some (chars "2025-01-01")))]),
      backups := [], target := none } := by
  decide

/-! ## C10: deploy frame -/

/-- `deploy_keys` either leaves the state untouched or only replaces the
target file's content by itself plus appended keys; it never assigns to
`self.keys`, `self.aliases`, the key-list file, the sidecar or the
backup directory. -/
theorem deployKeys_cases (s : State) (sel : Line) :
    (deployKeys s sel).1 = s ∨
    ∃ added : List Line,
      (deployKeys s sel).1 =
        { s with target := some (s.target.getD [] ++ appendContent added) } := by
  unfold deployKeys
  dsimp only
  repeat' split
  all_goals first
    | (left; rfl)
    | (right; exact ⟨_, rfl⟩)

/-- C10 (confirmed): Deploy never mutates the managed inventory — after
`deploy_keys` the in-memory key list and metadata mapping, the key-list
file, the metadata sidecar and the backup directory are all exactly as
before; at most the separate deploy target file gains appended lines.
(The model gives the deploy target its own state field; the claim's
"separate deploy target" presupposes exactly that.  If the process were
run with `~/.ssh` as the working directory the two paths would collide
on disk — a file-system aliasing situation outside this model.) -/
theorem deploy_never_mutates_inventory (s : State) (sel : Line) :
    (deployKeys s sel).1.keys = s.keys ∧
    (deployKeys s sel).1.aliases = s.aliases ∧
    (deployKeys s sel).1.keysFile = s.keysFile ∧
    (deployKeys s sel).1.aliasesFile = s.aliasesFile ∧
    (deployKeys s sel).1.backups = s.backups ∧
    ((deployKeys s sel).1.target = s.target ∨
      ∃ added : List Line,
        (deployKeys s sel).1.target =
          some (s.target.getD [] ++ appendContent added)) := by
  rcases deployKeys_cases s sel with h | ⟨added, h⟩
  · rw [h]
    exact ⟨rfl, rfl, rfl, rfl, rfl, Or.inl rfl⟩
  · rw [h]
    exact ⟨rfl, rfl, rfl, rfl, rfl, Or.inr ⟨added, rfl⟩⟩

/-! ## C1: deploy idempotence -/

/-- Occurrence count of a line in a list of lines. -/
def countOcc (x : Line) : List Line → Nat
  | [] => 0
  | y :: ys => (if y = x then 1 else 0) + countOcc x ys

theorem countOcc_append (x : Line) (l m : List Line) :
    countOcc x (l ++ m) = countOcc x l + countOcc x m := by
  induction l with
  | nil => simp [countOcc]
  | cons y l ih => simp [countOcc, ih]; omega

theorem countOcc_eq_zero (x : Line) (l : List Line) (h : ¬ x ∈ l) :
    countOcc x l = 0 := by
  induction l with
  | nil => rfl
  | cons y l ih =>
    have hy : ¬ y = x := fun hc => h (by simp [hc])
    simp [countOcc, hy]
    exact ih (fun hc => h (by simp [hc]))

theorem countOcc_pos (x : Line) (l : List Line) (h : x ∈ l) :
    1 ≤ countOcc x l := by
  induction l with
  | nil => simp at h
  | cons y l ih =>
    rcases List.mem_cons.mp h with h | h
    · simp [countOcc, h.symm]
    · have := ih h
      simp [countOcc]
      omega

theorem countOcc_le_one_of_nodup (x : Line) (l : List Line) (h : l.Nodup) :
    countOcc x l ≤ 1 := by
  induction l with
  | nil => simp [countOcc]
  | cons y l ih =>
    rcases List.nodup_cons.mp h with ⟨hy, hl⟩
    by_cases hyx : y = x
    · subst hyx
      have := countOcc_eq_zero y l hy
      simp [countOcc, this]
    · simp [countOcc, hyx]
      exact ih hl

theorem countOcc_filter_pos (x : Line) (l : List Line) (p : Line → Bool)
    (h : p x = true) : countOcc x (l.filter p) = countOcc x l := by
  induction l with
  | nil => rfl
  | cons y l ih =>
    rw [List.filter_cons]
    by_cases hyx : y = x
    · subst hyx
      rw [if_pos h]
      simp [countOcc, ih]
    · split
      · simp [countOcc, hyx, ih]
      · simp [countOcc, hyx, ih]

/-- The `existing_keys` read in `deploy_keys`, as a function of the
target file. -/
theorem existing_eq (t : Option Line) :
    (match t with
     | none => ([] : List Line)
     | some raw => loadLines raw) = loadLines (t.getD []) := by
  cases t
  · exact loadLines_nil.symm
  · rfl

/-- Everything a selection resolves to is an inventory entry. -/
theorem resolveSelection_mem (keys : List Line) (sel : Line)
    (selected : List Line) (h : resolveSelection keys sel = some selected) :
    ∀ k ∈ selected, k ∈ keys := by
  unfold resolveSelection at h
  split at h
  · cases h
    exact fun k hk => hk
  · rcases hp : parseIndices sel with _ | idxs
    · rw [hp] at h; cases h
    · rw [hp] at h
      injection h with h
      subst h
      intro k hk
      rcases List.mem_filterMap.mp hk with ⟨i, _, hfi⟩
      split at hfi
      · exact List.getElem?_mem hfi
      · cases hfi

/-- Unfolding of `deploy_keys` along its main path: non-empty inventory,
non-blank selection, selection resolves. -/
theorem deployKeys_main (s : State) (sel : Line) (selected : List Line)
    (h1 : ¬ s.keys = []) (h2 : ¬ pyStrip sel = [])
    (h3 : resolveSelection s.keys (pyStrip sel) = some selected) :
    deployKeys s sel =
      (if selected.filter (fun k => ¬ k ∈ loadLines (s.target.getD [])) = [] then
        (s, .alreadyDeployed)
      else
        ({ s with target := some (s.target.getD [] ++
            appendContent (selected.filter
              (fun k => ¬ k ∈ loadLines (s.target.getD [])))) },
         .report
           (((selected.filter (fun k => ¬ k ∈ loadLines (s.target.getD []))).filter
              (fun k => k ∈ loadLines (s.target.getD [] ++
                appendContent (selected.filter
                  (fun k => ¬ k ∈ loadLines (s.target.getD [])))))).map getKeyName)
           (((selected.filter (fun k => ¬ k ∈ loadLines (s.target.getD []))).filter
              (fun k => ¬ k ∈ loadLines (s.target.getD [] ++
                appendContent (selected.filter
                  (fun k => ¬ k ∈ loadLines (s.target.getD [])))))).map getKeyName))) := by
  unfold deployKeys
  rw [if_neg h1]
  dsimp only
  rw [if_neg h2, h3, existing_eq]

/-- Reading the target after appending well-formed keys to
newline-terminated content sees the old lines followed by those keys. -/
theorem loadLines_target_append (ls A : List Line)
    (hls : ∀ l ∈ ls, ¬ '\n' ∈ l) (hA : ∀ k ∈ A, wfLine k) :
    loadLines (appendContent ls ++ appendContent A) =
      loadLines (appendContent ls) ++ A := by
  rw [← appendContent_append]
  rw [loadLines_appendContent (ls ++ A) (by
    intro l hl
    rcases List.mem_append.mp hl with h | h
    · exact hls l h
    · exact (hA l h).2.2)]
  rw [List.map_append, List.filter_append]
  congr 1
  · rw [loadLines_appendContent ls hls]
  · have h1 : A.map pyStrip = A := by
      rw [List.map_congr_left (fun l hl => (hA l hl).2.1)]
      simp
    rw [h1]
    exact List.filter_eq_self.mpr (fun l hl => by simp [(hA l hl).1])

/-- C1 (amended): for every inventory of well-formed key lines, every
resolving selection whose selected lines are pairwise distinct, and
every deploy target that is absent or a sequence of newline-terminated
lines containing each selected line at most once: running Deploy twice
with the same selection leaves the target containing each selected key
line exactly once, the second run changes nothing, and it reports that
all selected keys are already deployed. -/
theorem deploy_twice_idempotent (s : State) (sel : Line)
    (selected ls : List Line)
    (hk : ¬ s.keys = [])
    (hsel : ¬ pyStrip sel = [])
    (hres : resolveSelection s.keys (pyStrip sel) = some selected)
    (hwf : ∀ k ∈ s.keys, wfLine k)
    (hnd : selected.Nodup)
    (hls : ∀ l ∈ ls, ¬ '\n' ∈ l)
    (ht : s.target.getD [] = appendContent ls)
    (honce : ∀ k ∈ selected, countOcc k (loadLines (s.target.getD [])) ≤ 1) :
    (deployKeys (deployKeys s sel).1 sel).2 = .alreadyDeployed ∧
    (deployKeys (deployKeys s sel).1 sel).1 = (deployKeys s sel).1 ∧
    ∀ k ∈ selected,
      countOcc k
        (loadLines ((deployKeys (deployKeys s sel).1 sel).1.target.getD [])) = 1 := by
  have hmain := deployKeys_main s sel selected hk hsel hres
  set E1 := loadLines (s.target.getD []) with hE1
  set A := selected.filter (fun k => ¬ k ∈ E1) with hA
  by_cases hAe : A = []
  · rw [hmain, if_pos hAe]
    dsimp only
    rw [hmain, if_pos hAe]
    dsimp only
    refine ⟨rfl, rfl, ?_⟩
    intro k hks
    have hkE : k ∈ E1 := by
      have h := List.filter_eq_nil_iff.mp hAe k hks
      simpa using h
    exact le_antisymm (honce k hks) (countOcc_pos k E1 hkE)
  · rw [hmain, if_neg hAe]
    dsimp only
    have hwfA : ∀ k ∈ A, wfLine k := fun k hk' =>
      hwf k (resolveSelection_mem _ _ _ hres k (List.mem_of_mem_filter hk'))
    have hload : loadLines (s.target.getD [] ++ appendContent A) = E1 ++ A := by
      rw [ht, loadLines_target_append ls A hls hwfA, hE1, ht]
    have hmain2 := deployKeys_main
      { s with target := some (s.target.getD [] ++ appendContent A) }
      sel selected hk hsel hres
    have hsub : ∀ k ∈ selected, k ∈ E1 ++ A := by
      intro k hks
      by_cases hkE : k ∈ E1
      · exact List.mem_append.mpr (Or.inl hkE)
      · exact List.mem_append.mpr (Or.inr (List.mem_filter.mpr ⟨hks, by simpa using hkE⟩))
    have hA2 : selected.filter (fun k => ¬ k ∈ loadLines
        (({ s with target := some (s.target.getD [] ++ appendContent A) } : State).target.getD [])) = [] := by
      show selected.filter (fun k => ¬ k ∈ loadLines
        (s.target.getD [] ++ appendContent A)) = []
      rw [hload]
      refine List.filter_eq_nil_iff.mpr (fun k hks => by
        simp only [decide_not, Bool.not_eq_true', decide_eq_false_iff_not, not_not]
        exact hsub k hks)
    rw [hmain2, if_pos hA2]
    dsimp only
    refine ⟨rfl, rfl, ?_⟩
    intro k hks
    show countOcc k (loadLines (s.target.getD [] ++ appendContent A)) = 1
    rw [hload, countOcc_append]
    by_cases hkE : k ∈ E1
    · have h1 : countOcc k E1 = 1 := le_antisymm (honce k hks) (countOcc_pos k E1 hkE)
      have h0 : countOcc k A = 0 := countOcc_eq_zero k A (by
        intro hkA
        have hm := List.mem_filter.mp hkA
        simp at hm
        exact hm.2 hkE)
      omega
    · have h0 : countOcc k E1 = 0 := countOcc_eq_zero k E1 hkE
      have h1 : countOcc k A = 1 := by
        rw [hA, countOcc_filter_pos k selected _ (by simpa using hkE)]
        exact le_antisymm (countOcc_le_one_of_nodup k selected hnd)
          (countOcc_pos k selected hks)
      omega

/-- C1 (counterexample): with an inventory holding the same key line
twice (nothing stops the key-list file from containing duplicates) and
selection `all` against an absent target, the line is appended twice on
the first deploy — `keys_to_add` keeps duplicates — so after the second
deploy the target contains the selected key line twice, not exactly
once as the claim states. -/
theorem deploy_twice_cex :
    countOcc (chars "ssh-rsa AAAA")
      (loadLines ((deployKeys (deployKeys
        { keys := [chars "ssh-rsa AAAA", chars "ssh-rsa AAAA"], aliases := [],
          keysFile := some [], aliasesFile := none, backups := [],
          target := none }
        (chars "all")).1 (chars "all")).1.target.getD [])) = 2 ∧
    ¬ countOcc (chars "ssh-rsa AAAA")
      (loadLines ((deployKeys (deployKeys
        { keys := [chars "ssh-rsa AAAA", chars "ssh-rsa AAAA"], aliases := [],
          keysFile := some [], aliasesFile := none, backups := [],
          target := none }
        (chars "all")).1 (chars "all")).1.target.getD [])) = 1 := by
  refine ⟨by decide, by decide⟩

/-- A one-key state with absent target, used to witness C1's theorem. -/
def sampleDeployState : State :=
  { keys := [chars "ssh-rsa AAAA alice"], aliases := [],
    keysFile := some [], aliasesFile := none, backups := [],
    target := none }

/-- Witness for C1's amended theorem at a concrete one-key deploy. -/
theorem deploy_twice_idempotent_witness :
    (deployKeys (deployKeys sampleDeployState (chars "all")).1 (chars "all")).2 =
        DeployResult.alreadyDeployed ∧
    (deployKeys (deployKeys sampleDeployState (chars "all")).1 (chars "all")).1 =
        (deployKeys sampleDeployState (chars "all")).1 ∧
    ∀ k ∈ [chars "ssh-rsa AAAA alice"],
      countOcc k (loadLines ((deployKeys (deployKeys sampleDeployState
        (chars "all")).1 (chars "all")).1.target.getD [])) = 1 :=
  deploy_twice_idempotent sampleDeployState (chars "all")
    [chars "ssh-rsa AAAA alice"] []
    (by decide) (by decide) (by decide) (by decide) (by decide)
    (by decide) (by decide) (by decide)

/-! ## C4: delete -/

/-- The entries of a list whose 0-based positions (offset by `n`) are
*not* in `I`, in their original order — the claim's "removes exactly the
entries at the selected positions, preserving relative order". -/
def removeAtSet (I : List Nat) : Nat → List Line → List Line
  | _, [] => []
  | n, k :: ks =>
    if n ∈ I then removeAtSet I (n + 1) ks else k :: removeAtSet I (n + 1) ks

/-- Positions outside the window of a list segment do not affect it. -/
theorem removeAtSet_of_outside (I : List Nat) (n : Nat) (ks : List Line)
    (h : ∀ j ∈ I, j < n ∨ n + ks.length ≤ j) : removeAtSet I n ks = ks := by
  induction ks generalizing n with
  | nil => rfl
  | cons k ks ih =>
    have hn : ¬ n ∈ I := by
      intro hc
      have h' := h n hc
      simp only [List.length_cons] at h'
      omega
    rw [removeAtSet, if_neg hn]
    rw [ih (n + 1) (fun j hj => by
      have h' := h j hj
      simp only [List.length_cons] at h'
      omega)]

theorem removeAtSet_nil_set (n : Nat) (ks : List Line) :
    removeAtSet [] n ks = ks :=
  removeAtSet_of_outside [] n ks (fun j hj => by simp at hj)

theorem removeAtSet_append (I : List Nat) (n : Nat) (a b : List Line) :
    removeAtSet I n (a ++ b) =
      removeAtSet I n a ++ removeAtSet I (n + a.length) b := by
  induction a generalizing n with
  | nil => simp [removeAtSet]
  | cons k a ih =>
    rw [List.cons_append, removeAtSet, removeAtSet]
    by_cases hn : n ∈ I
    · rw [if_pos hn, if_pos hn, ih]
      simp [Nat.add_assoc, Nat.add_comm 1 a.length]
    · rw [if_neg hn, if_neg hn, ih, List.cons_append]
      simp [Nat.add_assoc, Nat.add_comm 1 a.length]

/-- Only membership of in-window positions matters. -/
theorem removeAtSet_congr (I J : List Nat) (n : Nat) (ks : List Line)
    (h : ∀ j, n ≤ j → j < n + ks.length → (j ∈ I ↔ j ∈ J)) :
    removeAtSet I n ks = removeAtSet J n ks := by
  induction ks generalizing n with
  | nil => rfl
  | cons k ks ih =>
    have hn : n ∈ I ↔ n ∈ J := h n (Nat.le_refl n) (by simp)
    have ih2 := ih (n + 1) (fun j h1 h2 => h j (by omega) (by
      simp only [List.length_cons]
      omega))
    rw [removeAtSet, removeAtSet]
    by_cases hmem : n ∈ I
    · rw [if_pos hmem, if_pos (hn.mp hmem), ih2]
    · rw [if_neg hmem, if_neg (fun hc => hmem (hn.mpr hc)), ih2]

/-- Removing a maximal position then smaller ones equals removing all of
them together. -/
theorem removeAtSet_erase_max (dn : Nat) (H : List Nat) (keys : List Line)
    (hdn : dn < keys.length) (hH : ∀ j ∈ H, j < dn) :
    removeAtSet (dn :: H) 0 keys = removeAtSet H 0 (keys.eraseIdx dn) := by
  have hsplit : keys = keys.take dn ++ (keys.get ⟨dn, hdn⟩ :: keys.drop (dn + 1)) := by
    conv_lhs => rw [← List.take_append_drop dn keys]
    rw [List.drop_eq_get_cons hdn]
  have htk : (keys.take dn).length = dn := List.length_take_of_le (Nat.le_of_lt hdn)
  rw [List.eraseIdx_eq_take_drop_succ]
  conv_lhs => rw [hsplit]
  rw [removeAtSet_append, removeAtSet_append, htk]
  simp only [Nat.zero_add]
  congr 1
  · exact removeAtSet_congr _ _ 0 _ (fun j _ h2 => by
      rw [htk] at h2
      simp only [List.mem_cons]
      constructor
      · rintro (rfl | hj)
        · omega
        · exact hj
      · exact fun hj => Or.inr hj)
  · rw [removeAtSet, if_pos (by simp)]
    rw [removeAtSet_of_outside _ _ _ (fun j hj => by
      simp only [List.mem_cons] at hj
      rcases hj with rfl | hj
      · left; omega
      · left; exact Nat.lt_succ_of_lt (hH j hj))]
    rw [removeAtSet_of_outside _ _ _ (fun j hj => Or.inl (hH j hj))]

/-- The 0-based positions a `to_delete` list actually removes: its
indices that are in range of an `n`-element list. -/
def hitSet (ds : List Int) (n : Nat) : List Nat :=
  ds.filterMap (fun i => if 0 ≤ i ∧ i.toNat < n then some i.toNat else none)

theorem hitSet_nil (n : Nat) : hitSet [] n = [] := rfl

theorem hitSet_mem_lt (ds : List Int) (n : Nat) (d : Int) (hd : ∀ b ∈ ds, b < d)
    (hd0 : 0 ≤ d) : ∀ j ∈ hitSet ds n, j < d.toNat := by
  intro j hj
  rcases List.mem_filterMap.mp hj with ⟨i, hi, hfi⟩
  split at hfi
  · next h =>
    injection hfi with hfi
    subst hfi
    have := hd i hi
    omega
  · cases hfi

/-- Shrinking the length bound by one does not change the hit set when
every index is below an in-range maximum. -/
theorem hitSet_shrink (ds : List Int) (n : Nat) (d : Int)
    (hd : ∀ b ∈ ds, b < d) (hd0 : 0 ≤ d) (hdn : d.toNat < n) :
    hitSet ds (n - 1) = hitSet ds n := by
  induction ds with
  | nil => rfl
  | cons i ds ih =>
    have hi := hd i (by simp)
    have heq : (if 0 ≤ i ∧ i.toNat < n - 1 then some i.toNat else none) =
        (if 0 ≤ i ∧ i.toNat < n then some i.toNat else none) := by
      by_cases h0 : 0 ≤ i
      · have : i.toNat < d.toNat := by omega
        rw [if_pos ⟨h0, by omega⟩, if_pos ⟨h0, by omega⟩]
      · rw [if_neg (fun hc => h0 hc.1), if_neg (fun hc => h0 hc.1)]
    have ih2 := ih (fun b hb => hd b (by simp [hb]))
    unfold hitSet at ih2 ⊢
    rw [List.filterMap_cons, List.filterMap_cons, heq, ih2]

/-- The deletion loop deletes exactly the in-range positions of its index
list, provided the list is strictly descending (each deletion then leaves
every remaining index pointing at its original entry). -/
theorem deleteLoop_keys (ds : List Int) (keys : List Line) (al : AliasDict)
    (hdesc : ds.Pairwise (fun a b => b < a)) :
    (deleteLoop ds keys al).1 = removeAtSet (hitSet ds keys.length) 0 keys := by
  induction ds generalizing keys al with
  | nil =>
    rw [hitSet_nil, removeAtSet_nil_set]
    rfl
  | cons d rest ih =>
    rcases List.pairwise_cons.mp hdesc with ⟨hd, hrest⟩
    by_cases hvalid : 0 ≤ d ∧ d.toNat < keys.length
    · rw [deleteLoop, if_pos hvalid]
      dsimp only
      rw [ih _ _ hrest]
      have hlen : (keys.eraseIdx d.toNat).length = keys.length - 1 :=
        List.length_eraseIdx_of_lt hvalid.2
      rw [hlen, hitSet_shrink rest keys.length d hd hvalid.1 hvalid.2]
      have hcons : hitSet (d :: rest) keys.length =
          d.toNat :: hitSet rest keys.length := by
        unfold hitSet
        rw [List.filterMap_cons, if_pos hvalid]
      rw [hcons, removeAtSet_erase_max d.toNat (hitSet rest keys.length) keys
        hvalid.2 (hitSet_mem_lt rest keys.length d hd hvalid.1)]
    · rw [deleteLoop, if_neg hvalid, ih _ _ hrest]
      congr 1
      unfold hitSet
      rw [List.filterMap_cons, if_neg hvalid]

/-- The deletion loop removes from the metadata dict exactly the entries
keyed by the display names it deletes. -/
theorem deleteLoop_aliases (ds : List Int) (keys : List Line) (al : AliasDict) :
    (deleteLoop ds keys al).2.1 =
      al.filter (fun p => ¬ p.1 ∈ (deleteLoop ds keys al).2.2) := by
  induction ds generalizing keys al with
  | nil =>
    show al = al.filter _
    symm
    exact List.filter_eq_self.mpr (fun p hp => by simp [deleteLoop])
  | cons d rest ih =>
    by_cases hvalid : 0 ≤ d ∧ d.toNat < keys.length
    · rw [deleteLoop, if_pos hvalid]
      dsimp only
      rw [ih]
      unfold dictPop
      rw [List.filter_filter]
      apply List.filter_congr
      intro p hp
      simp only [List.mem_cons, not_or, Bool.decide_and, decide_not]
      exact Bool.and_comm _ _
    · rw [deleteLoop, if_neg hvalid, ih]

/-! Sorting: `sorted(indices, reverse=True)`. -/

theorem insertDesc_perm (x : Int) (l : List Int) :
    (insertDesc x l).Perm (x :: l) := by
  induction l with
  | nil => exact List.Perm.refl _
  | cons y ys ih =>
    rw [insertDesc]
    split
    · exact List.Perm.refl _
    · exact (ih.cons y).trans (List.Perm.swap x y ys)

theorem sortDesc_perm (l : List Int) : (sortDesc l).Perm l := by
  induction l with
  | nil => exact List.Perm.refl _
  | cons x xs ih => exact (insertDesc_perm x (sortDesc xs)).trans (ih.cons x)

theorem insertDesc_sorted (x : Int) (l : List Int)
    (h : l.Pairwise (fun a b => b ≤ a)) :
    (insertDesc x l).Pairwise (fun a b => b ≤ a) := by
  induction l with
  | nil => simp [insertDesc]
  | cons y ys ih =>
    rcases List.pairwise_cons.mp h with ⟨hy, hys⟩
    rw [insertDesc]
    split
    · next hle =>
      refine List.pairwise_cons.mpr ⟨?_, h⟩
      intro b hb
      rcases List.mem_cons.mp hb with rfl | hb
      · exact hle
      · exact le_trans (hy b hb) hle
    · next hgt =>
      refine List.pairwise_cons.mpr ⟨?_, ih hys⟩
      intro b hb
      have hmem := (insertDesc_perm x ys).mem_iff.mp hb
      rcases List.mem_cons.mp hmem with rfl | hb'
      · omega
      · exact hy b hb'

theorem sortDesc_sorted (l : List Int) :
    (sortDesc l).Pairwise (fun a b => b ≤ a) := by
  induction l with
  | nil => simp [sortDesc]
  | cons x xs ih => exact insertDesc_sorted x (sortDesc xs) ih

theorem sortDesc_strict (l : List Int) (h : l.Nodup) :
    (sortDesc l).Pairwise (fun a b => b < a) := by
  have h1 := sortDesc_sorted l
  have h2 : (sortDesc l).Nodup := (sortDesc_perm l).nodup_iff.mpr h
  exact ((sortDesc_sorted l).and h2).imp (fun hab => by omega)

theorem hitSet_all_valid (ds : List Int) (n : Nat)
    (h : ∀ i ∈ ds, 0 ≤ i ∧ i.toNat < n) : hitSet ds n = ds.map Int.toNat := by
  induction ds with
  | nil => rfl
  | cons i ds ih =>
    unfold hitSet at ih ⊢
    rw [List.filterMap_cons, if_pos (h i (by simp)),
      ih (fun j hj => h j (by simp [hj])), List.map_cons]

/-- `save_keys` on a state whose key-list file exists (same computation
as in C5's theorem, restated as a reusable helper). -/
theorem saveKeys_some (s : State) (c : Line) (h : s.keysFile = some c) :
    saveKeys s = .ok (saveAliases { s with
      backups := s.backups ++ [c],
      keysFile := some (fileOfKeys s.keys) }) := by
  unfold saveKeys createBackup
  rw [h]

/-- Unfolding of `delete_keys` along the typed-selection, confirmed
path. -/
theorem deleteKeys_typed (s : State) (sel confirm : Line) (idxs : List Int)
    (hk : ¬ s.keys = [])
    (hsel : ¬ pyStrip sel = [])
    (hnotall : ¬ pyLower (pyStrip sel) = chars "all")
    (hparse : parseIndices (pyStrip sel) = some idxs)
    (hconf : pyLower confirm = chars "yes") :
    deleteKeys s sel confirm =
      (if (deleteLoop (sortDesc idxs) s.keys s.aliases).2.2 = [] then
        .ok ({ s with keys := (deleteLoop (sortDesc idxs) s.keys s.aliases).1,
                      aliases := (deleteLoop (sortDesc idxs) s.keys s.aliases).2.1 },
             .deleted [])
      else
        match saveKeys { s with
            keys := (deleteLoop (sortDesc idxs) s.keys s.aliases).1,
            aliases := (deleteLoop (sortDesc idxs) s.keys s.aliases).2.1 } with
        | .error e => .error e
        | .ok s2 =>
          .ok (s2, .deleted (deleteLoop (sortDesc idxs) s.keys s.aliases).2.2)) := by
  unfold deleteKeys
  rw [if_neg hk]
  dsimp only
  rw [if_neg hsel, if_neg hnotall, hparse]
  dsimp only [Option.map]
  rw [if_pos hconf]

/-- C4 (confirmed): a confirmed typed deletion of pairwise-distinct
in-range indices removes exactly the entries originally at those
positions — the result is the original list restricted to the unselected
positions, in order, so the size drops by the number of indices and the
relative order of survivors is unchanged.  The result depends on the
index *set* only (`removeAtSet` only tests membership), so the order in
which the indices were typed is irrelevant; internally they are processed
highest-index-first (`sortDesc`).  The metadata dict loses exactly the
entries keyed by the deleted display names. -/
theorem delete_removes_exactly (s : State) (sel confirm : Line)
    (idxs : List Int) (c : Line)
    (hk : ¬ s.keys = [])
    (hc : s.keysFile = some c)
    (hsel : ¬ pyStrip sel = [])
    (hnotall : ¬ pyLower (pyStrip sel) = chars "all")
    (hparse : parseIndices (pyStrip sel) = some idxs)
    (hconf : pyLower confirm = chars "yes")
    (hnd : idxs.Nodup)
    (hrange : ∀ i ∈ idxs, 0 ≤ i ∧ i.toNat < s.keys.length) :
    ∃ (s' : State) (names : List Line),
      deleteKeys s sel confirm = .ok (s', .deleted names) ∧
      s'.keys = removeAtSet (idxs.map Int.toNat) 0 s.keys ∧
      s'.aliases = s.aliases.filter (fun p => ¬ p.1 ∈ names) := by
  have hstrict := sortDesc_strict idxs hnd
  have hkeys := deleteLoop_keys (sortDesc idxs) s.keys s.aliases hstrict
  have hal := deleteLoop_aliases (sortDesc idxs) s.keys s.aliases
  have hrangeS : ∀ i ∈ sortDesc idxs, 0 ≤ i ∧ i.toNat < s.keys.length :=
    fun i hi => hrange i ((sortDesc_perm idxs).mem_iff.mp hi)
  have hrw : removeAtSet (hitSet (sortDesc idxs) s.keys.length) 0 s.keys =
      removeAtSet (idxs.map Int.toNat) 0 s.keys := by
    rw [hitSet_all_valid (sortDesc idxs) s.keys.length hrangeS]
    exact removeAtSet_congr _ _ 0 _
      (fun j _ _ => ((sortDesc_perm idxs).map Int.toNat).mem_iff)
  rw [deleteKeys_typed s sel confirm idxs hk hsel hnotall hparse hconf]
  by_cases hnames : (deleteLoop (sortDesc idxs) s.keys s.aliases).2.2 = []
  · rw [if_pos hnames]
    refine ⟨_, [], rfl, ?_, ?_⟩
    · show (deleteLoop (sortDesc idxs) s.keys s.aliases).1 = _
      rw [hkeys, hrw]
    · show (deleteLoop (sortDesc idxs) s.keys s.aliases).2.1 = _
      rw [hal, hnames]
  · rw [if_neg hnames, saveKeys_some
      { s with keys := (deleteLoop (sortDesc idxs) s.keys s.aliases).1,
               aliases := (deleteLoop (sortDesc idxs) s.keys s.aliases).2.1 } c hc]
    refine ⟨_, _, rfl, ?_, ?_⟩
    · show (deleteLoop (sortDesc idxs) s.keys s.aliases).1 = _
      rw [hkeys, hrw]
    · show (deleteLoop (sortDesc idxs) s.keys s.aliases).2.1 = _
      rw [hal]

/-- Witness for C4 at a three-key state, deleting typed indices "3,1". -/
theorem delete_removes_exactly_witness :
    ∃ (s' : State) (names : List Line),
      deleteKeys
        { keys := [chars "t a ka", chars "t b kb", chars "t c kc"],
          aliases := [(chars "ka", .bare (chars "x")),
                      (chars "kb", .bare (chars "y"))],
          keysFile := some [], aliasesFile := none, backups := [],
          target := none }
        (chars "3,1") (chars "yes") = .ok (s', .deleted names) ∧
      s'.keys = removeAtSet (([3, 1].map (fun n => n - 1)).map Int.toNat) 0
        [chars "t a ka", chars "t b kb", chars "t c kc"] ∧
      s'.aliases = [(chars "ka", .bare (chars "x")),
                    (chars "kb", .bare (chars "y"))].filter
        (fun p => ¬ p.1 ∈ names) :=
  delete_removes_exactly
    { keys := [chars "t a ka", chars "t b kb", chars "t c kc"],
      aliases := [(chars "ka", .bare (chars "x")),
                  (chars "kb", .bare (chars "y"))],
      keysFile := some [], aliasesFile := none, backups := [],
      target := none }
    (chars "3,1") (chars "yes") ([3, 1].map (fun n => n - 1)) []
    (by decide) rfl (by decide) (by decide) (by decide) (by decide)
    (by decide) (by decide)

/-! ## C8: invalid selections -/

/-- A selection that neither reads `all` nor parses resolves to nothing. -/
theorem resolveSelection_none (keys : List Line) (sel : Line)
    (hnotall : ¬ pyLower sel = chars "all")
    (hnone : parseIndices sel = none) :
    resolveSelection keys sel = none := by
  unfold resolveSelection
  rw [if_neg hnotall, hnone]

/-- C8 (counterexample): a one-key inventory, typed selection `"1,2"`
(index 2 out of range) and confirmation `yes`: the claim says such a
mixed selection mutates nothing, but `delete_keys` silently skips the
out-of-range index, deletes key 1 and saves — the key list ends up
empty. -/
theorem invalid_selection_cex :
    (deleteKeys { keys := [chars "t m alice"], aliases := [],
                  keysFile := some [], aliasesFile := none, backups := [],
                  target := none }
      (chars "1,2") (chars "yes")).map (fun r => r.1.keys) = .ok [] ∧
    ¬ ([] : List Line) = [chars "t m alice"] := by
  refine ⟨rfl, by decide⟩

/-- C8 (amended): a *non-numeric* selection makes capture, deploy and
delete abort back to the menu with the state untouched; an
*out-of-range* index, however, is silently skipped, and a confirmed
typed deletion mixing in-range and out-of-range distinct indices deletes
exactly the in-range ones (so a mixed selection does mutate). -/
theorem invalid_selection_behavior :
    (∀ (s : State) (sysKeys : List Line) (sel : Line) (ow a e : Nat → Line)
        (now : Line),
      ¬ pyLower (pyStrip sel) = chars "all" →
      parseIndices (pyStrip sel) = none →
      captureKeys s sysKeys sel ow a e now = .ok (s, [])) ∧
    (∀ (s : State) (sel : Line),
      ¬ s.keys = [] → ¬ pyStrip sel = [] →
      ¬ pyLower (pyStrip sel) = chars "all" →
      parseIndices (pyStrip sel) = none →
      deployKeys s sel = (s, .invalidSelection)) ∧
    (∀ (s : State) (sel confirm : Line),
      ¬ s.keys = [] → ¬ pyStrip sel = [] →
      ¬ pyLower (pyStrip sel) = chars "all" →
      parseIndices (pyStrip sel) = none →
      deleteKeys s sel confirm = .ok (s, .invalidSelection)) ∧
    (∀ (s : State) (sel confirm : Line) (idxs : List Int) (c : Line),
      ¬ s.keys = [] → s.keysFile = some c → ¬ pyStrip sel = [] →
      ¬ pyLower (pyStrip sel) = chars "all" →
      parseIndices (pyStrip sel) = some idxs →
      pyLower confirm = chars "yes" → idxs.Nodup →
      ∃ (s' : State) (names : List Line),
        deleteKeys s sel confirm = .ok (s', .deleted names) ∧
        s'.keys = removeAtSet (hitSet (sortDesc idxs) s.keys.length) 0 s.keys) := by
  refine ⟨?_, ?_, ?_, ?_⟩
  · intro s sysKeys sel ow a e now hnotall hnone
    unfold captureKeys
    by_cases hsys : sysKeys = []
    · rw [if_pos hsys]
    · rw [if_neg hsys]
      dsimp only
      by_cases hsel : pyStrip sel = []
      · rw [if_pos hsel]
      · rw [if_neg hsel, if_neg hnotall, hnone]
  · intro s sel hk hsel hnotall hnone
    unfold deployKeys
    rw [if_neg hk]
    dsimp only
    rw [if_neg hsel, resolveSelection_none s.keys (pyStrip sel) hnotall hnone]
  · intro s sel confirm hk hsel hnotall hnone
    unfold deleteKeys
    rw [if_neg hk]
    dsimp only
    rw [if_neg hsel, if_neg hnotall, hnone]
    rfl
  · intro s sel confirm idxs c hk hc hsel hnotall hparse hconf hnd
    have hstrict := sortDesc_strict idxs hnd
    have hkeys := deleteLoop_keys (sortDesc idxs) s.keys s.aliases hstrict
    rw [deleteKeys_typed s sel confirm idxs hk hsel hnotall hparse hconf]
    by_cases hnames : (deleteLoop (sortDesc idxs) s.keys s.aliases).2.2 = []
    · rw [if_pos hnames]
      exact ⟨_, [], rfl, hkeys⟩
    · rw [if_neg hnames, saveKeys_some
        { s with keys := (deleteLoop (sortDesc idxs) s.keys s.aliases).1,
                 aliases := (deleteLoop (sortDesc idxs) s.keys s.aliases).2.1 } c hc]
      exact ⟨_, _, rfl, hkeys⟩

/-- Witness for C8's amended theorem: non-numeric selection `"x"` on all
three operations, and the mixed selection `"1,6"` on a one-key state. -/
theorem invalid_selection_behavior_witness :
    captureKeys sampleDeployState [chars "t m k"] (chars "x")
      (fun _ => []) (fun _ => []) (fun _ => []) [] = .ok (sampleDeployState, []) ∧
    deployKeys sampleDeployState (chars "x") =
      (sampleDeployState, .invalidSelection) ∧
    deleteKeys sampleDeployState (chars "x") (chars "yes") =
      .ok (sampleDeployState, .invalidSelection) ∧
    (∃ (s' : State) (names : List Line),
      deleteKeys sampleDeployState (chars "1,6") (chars "yes") =
        .ok (s', .deleted names) ∧
      s'.keys = removeAtSet (hitSet (sortDesc [0, 5])
        sampleDeployState.keys.length) 0 sampleDeployState.keys) :=
  ⟨invalid_selection_behavior.1 sampleDeployState [chars "t m k"] (chars "x")
      (fun _ => []) (fun _ => []) (fun _ => []) [] (by decide) (by decide),
   invalid_selection_behavior.2.1 sampleDeployState (chars "x")
      (by decide) (by decide) (by decide) (by decide),
   invalid_selection_behavior.2.2.1 sampleDeployState (chars "x") (chars "yes")
      (by decide) (by decide) (by decide) (by decide),
   invalid_selection_behavior.2.2.2 sampleDeployState (chars "1,6") (chars "yes")
      [0, 5] [] (by decide) rfl (by decide) (by decide) (by decide) (by decide)
      (by decide)⟩

/-! ## C9: the metadata invariant -/

/-- Every metadata entry is keyed by the display name of some key record. -/
def IState (keys : List Line) (al : AliasDict) : Prop :=
  ∀ p ∈ al, ∃ k ∈ keys, getKeyName k = p.1

instance (keys : List Line) (al : AliasDict) : Decidable (IState keys al) := by
  unfold IState; infer_instance

/-- What `load_keys` would read from a key-list file. -/
def loadedKeys : Option Line → List Line
  | none => []
  | some c => loadLines c

/-- The mapping a sidecar file yields on load (absent or malformed load
as nothing into the initially-empty dict). -/
def sidecarDict : Option SidecarFile → AliasDict
  | some (.parsable d) => d
  | _ => []

/-- The invariant on the on-disk pair: every sidecar entry is keyed by
the display name of some line of the key-list file. -/
def IDisk (s : State) : Prop :=
  ∀ p ∈ sidecarDict s.aliasesFile,
    ∃ k ∈ loadedKeys s.keysFile, getKeyName k = p.1

instance (s : State) : Decidable (IDisk s) := by
  unfold IDisk; infer_instance

/-- The operations of the interactive loop that touch the inventory,
with their console inputs. -/
inductive Op where
  | capture (sysKeys : List Line) (sel : Line) (ow aliasAns expiryAns : Nat → Line)
      (now : Line)
  | deploy (sel : Line)
  | setAliasOp (sel aliasText : Line)
  | delete (sel confirm : Line)
  | setExpiryOp (idx : Int) (dateStr : Line)
  /-- `__init__`'s load sequence (fresh mapping, `load_keys`,
  `load_aliases`). -/
  | reload

/-- Run one menu operation on the state (ignoring its report). -/
def applyOp (s : State) : Op → Except Unit State
  | .capture sys sel ow a e now => (captureKeys s sys sel ow a e now).map Prod.fst
  | .deploy sel => .ok (deployKeys s sel).1
  | .setAliasOp sel a => .ok (setAlias s sel a)
  | .delete sel confirm => (deleteKeys s sel confirm).map Prod.fst
  | .setExpiryOp i d => setExpiry s i d
  | .reload => .ok (initState s.keysFile s.aliasesFile s.backups s.target).1

theorem getD_mem_of_lt (l : List Line) (i : Nat) (h : i < l.length) :
    l.getD i [] ∈ l := by
  rw [List.getD_eq_get l [] h]
  exact l.get_mem i h

theorem mem_eraseIdx_of_ne (l : List Line) (i : Nat) (hi : i < l.length)
    (a : Line) (ha : a ∈ l) (hne : ¬ a = l.getD i []) : a ∈ l.eraseIdx i := by
  rw [List.eraseIdx_eq_take_drop_succ]
  rw [List.getD_eq_get l [] hi] at hne
  conv at ha => rw [← List.take_append_drop i l, List.drop_eq_get_cons hi]
  rcases List.mem_append.mp ha with h | h
  · exact List.mem_append.mpr (Or.inl h)
  · rcases List.mem_cons.mp h with h | h
    · exact absurd h hne
    · exact List.mem_append.mpr (Or.inr h)

/-- Every entry of `d[k] = v` either has key `k` or was already there. -/
theorem dictSet_fst (d : AliasDict) (k : Line) (v : MetaVal) :
    ∀ q ∈ dictSet d k v, q.1 = k ∨ q ∈ d := by
  intro q hq
  unfold dictSet at hq
  split at hq
  · rcases List.mem_map.mp hq with ⟨p, hp, heq⟩
    by_cases hpk : p.1 = k
    · rw [if_pos hpk] at heq
      left; rw [← heq]
    · rw [if_neg hpk] at heq
      right; rw [← heq]; exact hp
  · rcases List.mem_append.mp hq with h | h
    · right; exact h
    · left
      simp only [List.mem_singleton] at h
      rw [h]

theorem findExistingKey_lt (keys : List Line) (newKey : Line) (eidx : Nat)
    (h : findExistingKey keys newKey = some eidx) : eidx < keys.length := by
  unfold findExistingKey at h
  split at h
  · cases h
  · exact (List.findIdx?_eq_some_iff_findIdx_eq.mp h).1

theorem IState_dictSet (keys : List Line) (al : AliasDict) (k : Line)
    (v : MetaVal) (hk : ∃ key ∈ keys, getKeyName key = k)
    (h : IState keys al) : IState keys (dictSet al k v) := by
  intro q hq
  rcases dictSet_fst al k v q hq with hqk | hqa
  · rw [hqk]; exact hk
  · exact h q hqa

theorem IState_erase (keys : List Line) (al : AliasDict) (i : Nat)
    (hi : i < keys.length) (h : IState keys al) :
    IState (keys.eraseIdx i) (dictPop al (getKeyName (keys.getD i []))) := by
  intro q hq
  have hq' := List.mem_filter.mp hq
  obtain ⟨k, hk, hkn⟩ := h q hq'.1
  have hne : ¬ q.1 = getKeyName (keys.getD i []) := by simpa using hq'.2
  have hkne : ¬ k = keys.getD i [] := fun hc => hne (by rw [← hkn, hc])
  exact ⟨k, mem_eraseIdx_of_ne keys i hi k hk hkne, hkn⟩

theorem IState_captureAdd (keys : List Line) (al : AliasDict) (key : Line)
    (aliasAns expiryAns now : Line) (h : IState keys al) :
    IState (captureAdd key aliasAns expiryAns now keys al).1
      (captureAdd key aliasAns expiryAns now keys al).2.1 := by
  unfold captureAdd
  dsimp only
  intro q hq
  rcases dictSet_fst al (getKeyName key) _ q hq with hqk | hqa
  · exact ⟨key, by simp, hqk.symm⟩
  · obtain ⟨k, hk, hkn⟩ := h q hqa
    exact ⟨k, by simp [hk], hkn⟩

theorem saveKeys_frame (s s' : State) (h : saveKeys s = .ok s') :
    s'.keys = s.keys ∧ s'.aliases = s.aliases := by
  rcases hkf : s.keysFile with _ | c
  · rw [saveKeys, createBackup, hkf] at h
    cases h
  · rw [saveKeys_some s c hkf] at h
    simp only [Except.ok.injEq] at h
    subst h
    exact ⟨rfl, rfl⟩

theorem deleteLoop_IState (ds : List Int) (keys : List Line) (al : AliasDict)
    (h : IState keys al) :
    IState (deleteLoop ds keys al).1 (deleteLoop ds keys al).2.1 := by
  induction ds generalizing keys al with
  | nil => exact h
  | cons d rest ih =>
    by_cases hvalid : 0 ≤ d ∧ d.toNat < keys.length
    · rw [deleteLoop, if_pos hvalid]
      dsimp only
      exact ih _ _ (IState_erase keys al d.toNat hvalid.2 h)
    · rw [deleteLoop, if_neg hvalid]
      exact ih _ _ h

theorem captureLoop_IState (sysKeys : List Line) (ow a e : Nat → Line)
    (now : Line) (ds : List Int) (j : Nat) (keys : List Line) (al : AliasDict)
    (h : IState keys al) :
    IState (captureLoop sysKeys ow a e now ds j keys al).1
      (captureLoop sysKeys ow a e now ds j keys al).2.1 := by
  induction ds generalizing j keys al with
  | nil => exact h
  | cons i rest ih =>
    rw [captureLoop]
    by_cases hvalid : 0 ≤ i ∧ i.toNat < sysKeys.length
    · rw [if_pos hvalid]
      dsimp only
      rcases hfind : findExistingKey keys (sysKeys.getD i.toNat []) with _ | eidx
      · dsimp only
        exact ih (j + 1) _ _ (IState_captureAdd keys al _ _ _ _ h)
      · dsimp only
        by_cases how : pyLower (ow j) = chars "y"
        · rw [if_pos how]
          dsimp only
          have heb := findExistingKey_lt keys _ eidx hfind
          exact ih (j + 1) _ _ (IState_captureAdd _ _ _ _ _ _
            (IState_erase keys al eidx heb h))
        · rw [if_neg how]
          exact ih (j + 1) keys al h
    · rw [if_neg hvalid]
      exact ih (j + 1) keys al h

theorem captureKeys_IState (s : State) (sysKeys : List Line) (sel : Line)
    (ow a e : Nat → Line) (now : Line) (s' : State) (added : List Line)
    (h : captureKeys s sysKeys sel ow a e now = .ok (s', added))
    (hI : IState s.keys s.aliases) : IState s'.keys s'.aliases := by
  unfold captureKeys at h
  split at h
  · injection h with h
    injection h with h _
    subst h
    exact hI
  · dsimp only at h
    split at h
    · injection h with h
      injection h with h _
      subst h
      exact hI
    · split at h
      · injection h with h
        injection h with h _
        subst h
        exact hI
      · next idxs _ =>
        have hloop := captureLoop_IState sysKeys ow a e now idxs 0
          s.keys s.aliases hI
        split at h
        · injection h with h
          injection h with h _
          subst h
          exact hloop
        · split at h
          · cases h
          · next s2 hs2 =>
            injection h with h
            injection h with h _
            subst h
            rcases saveKeys_frame _ _ hs2 with ⟨hk2, ha2⟩
            rw [hk2, ha2]
            exact hloop

theorem deleteKeys_IState (s : State) (sel confirm : Line) (s' : State)
    (res : DeleteResult) (h : deleteKeys s sel confirm = .ok (s', res))
    (hI : IState s.keys s.aliases) : IState s'.keys s'.aliases := by
  unfold deleteKeys at h
  split at h
  · injection h with h
    injection h with h _
    subst h
    exact hI
  · dsimp only at h
    split at h
    · injection h with h
      injection h with h _
      subst h
      exact hI
    · split at h
      · injection h with h
        injection h with h _
        subst h
        exact hI
      · next toDelete _ =>
        have hloop := deleteLoop_IState toDelete s.keys s.aliases hI
        split at h
        · split at h
          · injection h with h
            injection h with h _
            subst h
            exact hloop
          · split at h
            · cases h
            · next s2 hs2 =>
              injection h with h
              injection h with h _
              subst h
              rcases saveKeys_frame _ _ hs2 with ⟨hk2, ha2⟩
              rw [hk2, ha2]
              exact hloop
        · injection h with h
          injection h with h _
          subst h
          exact hI

theorem setAlias_IState (s : State) (sel aliasText : Line)
    (hI : IState s.keys s.aliases) :
    IState (setAlias s sel aliasText).keys (setAlias s sel aliasText).aliases := by
  unfold setAlias
  split
  · exact hI
  · split
    · exact hI
    · dsimp only
      split
      · next hvalid =>
        split
        · exact hI
        · exact IState_dictSet s.keys s.aliases _ _
            ⟨_, getD_mem_of_lt _ _ hvalid.2, rfl⟩ hI
      · exact hI

theorem setExpiry_IState (s : State) (idx : Int) (dateStr : Line) (s' : State)
    (h : setExpiry s idx dateStr = .ok s') (hI : IState s.keys s.aliases) :
    IState s'.keys s'.aliases := by
  unfold setExpiry at h
  split at h
  · next hvalid =>
    dsimp only at h
    have hal0 : IState s.keys
        (if dictHas s.aliases (getKeyName (s.keys.getD idx.toNat [])) then
          s.aliases
        else s.aliases ++
          [(getKeyName (s.keys.getD idx.toNat []), .record none none none)]) := by
      split
      · exact hI
      · intro q hq
        rcases List.mem_append.mp hq with hqa | hqn
        · exact hI q hqa
        · simp only [List.mem_singleton] at hqn
          subst hqn
          exact ⟨s.keys.getD idx.toNat [], getD_mem_of_lt _ _ hvalid.2, rfl⟩
    split at h
    · cases h
    · split at h
      · cases h
      · injection h with h
        subst h
        exact IState_dictSet s.keys _ _ _
          ⟨s.keys.getD idx.toNat [], getD_mem_of_lt _ _ hvalid.2, rfl⟩ hal0
  · injection h with h
    subst h
    exact hI

/-- C9 (confirmed): every operation — capture, deploy, set-alias,
delete, set-expiry, and the load performed by `__init__` — preserves the
invariant that each metadata entry is keyed by the display name of some
key record: whenever a record is deleted or overwritten, the metadata
entry keyed by its display name is popped in the same operation, and
metadata is only ever written under the display name of a record that
exists (or is appended) in that same operation.  For the load, the
invariant holds of the loaded state whenever it holds of the on-disk
pair. -/
theorem metadata_entries_have_records (op : Op) (s s' : State)
    (happ : applyOp s op = .ok s')
    (hI : IState s.keys s.aliases) (hD : IDisk s) :
    IState s'.keys s'.aliases := by
  cases op with
  | capture sys sel ow a e now =>
    rcases hc : captureKeys s sys sel ow a e now with e' | pair
    · rw [applyOp, hc] at happ; cases happ
    · rw [applyOp, hc] at happ
      injection happ with happ
      subst happ
      exact captureKeys_IState s sys sel ow a e now pair.1 pair.2 (by rw [hc]) hI
  | deploy sel =>
    rw [applyOp] at happ
    injection happ with happ
    subst happ
    rcases deployKeys_cases s sel with h | ⟨added, h⟩
    · rw [h]; exact hI
    · rw [h]; exact hI
  | setAliasOp sel a =>
    rw [applyOp] at happ
    injection happ with happ
    subst happ
    exact setAlias_IState s sel a hI
  | delete sel confirm =>
    rcases hc : deleteKeys s sel confirm with e' | pair
    · rw [applyOp, hc] at happ; cases happ
    · rw [applyOp, hc] at happ
      injection happ with happ
      subst happ
      exact deleteKeys_IState s sel confirm pair.1 pair.2 (by rw [hc]) hI
  | setExpiryOp i d =>
    rw [applyOp] at happ
    exact setExpiry_IState s i d s' happ hI
  | reload =>
    rw [applyOp] at happ
    injection happ with happ
    subst happ
    unfold initState loadKeys loadAliases
    rcases hkf : s.keysFile with _ | c <;>
      rcases haf : s.aliasesFile with _ | sc
    · intro q hq; simp at hq
    · cases sc with
      | parsable d =>
        dsimp only
        intro q hq
        have := hD q (by simpa [sidecarDict, haf] using hq)
        simpa [loadedKeys, hkf] using this
      | malformed =>
        intro q hq; simp at hq
    · intro q hq; simp at hq
    · cases sc with
      | parsable d =>
        dsimp only
        intro q hq
        have := hD q (by simpa [sidecarDict, haf] using hq)
        simpa [loadedKeys, hkf] using this
      | malformed =>
        intro q hq; simp at hq

/-- Witness for C9 at a concrete set-alias operation on a one-key
state. -/
theorem metadata_entries_have_records_witness :
    IState (setAlias sampleDeployState (chars "1") (chars "work")).keys
      (setAlias sampleDeployState (chars "1") (chars "work")).aliases :=
  metadata_entries_have_records (.setAliasOp (chars "1") (chars "work"))
    sampleDeployState (setAlias sampleDeployState (chars "1") (chars "work"))
    rfl (by decide) (by decide)

end ManageKeys
